import Mathlib

/-!
Verification of the simple proof-of-work blockchain in
`blockchain-programming/bitcoin-mining/simple_bitcoin.py`.

The SHA-256 digest function is abstracted as a parameter
`H : String → String` (the source's `hashlib.sha256(...).hexdigest()`):
every property checked here is a structural property of the code that
holds for every choice of `H`.  Python float amounts and timestamps are
modelled as exact rationals, Python dicts as insertion-ordered
association lists (unique keys), and the wall-clock readings taken by
the source are passed in as explicit rational parameters.
-/

set_option maxRecDepth 4000

attribute [local semireducible] Rat.add Rat.mul Rat.sub Rat.inv

namespace SB

/-- The 64-character all-zero sentinel, `"0" * 64` in the source. -/
def zeros64 : String := String.mk (List.replicate 64 '0')

/-- Deterministic rendering of a rational, abstracting the float-to-string
conversion the source performs inside serialized payloads. -/
def qstr (q : ℚ) : String := toString q.num ++ "/" ++ toString q.den

/-- `Transaction` dataclass: sender, receiver, amount, fee, timestamp. -/
structure Transaction where
  sender : String
  receiver : String
  amount : ℚ
  fee : ℚ
  timestamp : ℚ
deriving DecidableEq, Repr, Inhabited

/-- Canonical serialization of a transaction with the fields in sorted key
order (amount, fee, receiver, sender, timestamp), abstracting
`json.dumps(asdict(self), sort_keys=True)`. -/
def Transaction.serialize (tx : Transaction) : String :=
  "amount:" ++ qstr tx.amount ++ ",fee:" ++ qstr tx.fee ++
  ",receiver:" ++ tx.receiver ++ ",sender:" ++ tx.sender ++
  ",timestamp:" ++ qstr tx.timestamp

/-- `Transaction.get_hash`: digest of the canonical serialization. -/
def Transaction.get_hash (H : String → String) (tx : Transaction) : String :=
  H tx.serialize

/-- `Transaction.is_valid`: sender differs from receiver, amount positive,
fee non-negative, both identifiers non-empty. -/
def Transaction.is_valid (tx : Transaction) : Bool :=
  decide (tx.sender ≠ tx.receiver) && decide (0 < tx.amount) &&
  decide (0 ≤ tx.fee) && decide (0 < tx.sender.length) &&
  decide (0 < tx.receiver.length)

/-- `Block` dataclass. -/
structure Block where
  index : Nat
  timestamp : ℚ
  transactions : List Transaction
  previous_hash : String
  merkle_root : String
  nonce : Nat
  difficulty : Nat
deriving DecidableEq, Repr, Inhabited

/-- One source of `calculate_merkle_root`: when the working level has odd
length, the last hash is appended once more (`tx_hashes.append(tx_hashes[-1])`). -/
def padOdd (l : List String) : List String :=
  if l.length % 2 = 1 then l ++ [l.getLastD ""] else l

/-- The inner `for i in range(0, len(tx_hashes), 2)` pass of
`calculate_merkle_root`: adjacent hashes are concatenated and re-hashed.
The input always has even length in the source (after `padOdd`); a stray
odd tail is returned unchanged. -/
def pairHash (H : String → String) : List String → List String
  | a :: b :: rest => H (a ++ b) :: pairHash H rest
  | [a] => [a]
  | [] => []

/-- The `while len(tx_hashes) > 1` loop of `calculate_merkle_root`, with an
iteration budget.  Each pass at least halves a level of length > 1, so a
budget of the initial length is always sufficient (proved below in
`merkleLoopF_run`), making this an exact model of the unbounded loop. -/
def merkleLoopF (H : String → String) : Nat → List String → List String
  | 0, l => l
  | f + 1, l => if 1 < l.length then merkleLoopF H f (pairHash H (padOdd l)) else l

/-- `Block.calculate_merkle_root`: all-zero sentinel for an empty list,
otherwise repeated pairwise hashing of the transaction hashes. -/
def calculate_merkle_root (H : String → String) (txs : List Transaction) : String :=
  if txs.isEmpty then zeros64
  else
    let tx_hashes := txs.map (Transaction.get_hash H)
    (merkleLoopF H tx_hashes.length tx_hashes).headD zeros64

/-- `Block.get_block_data`: the hashed f-string of index, timestamp,
previous hash, Merkle root and difficulty (no nonce). -/
def Block.get_block_data (b : Block) : String :=
  toString b.index ++ qstr b.timestamp ++ b.previous_hash ++
  b.merkle_root ++ toString b.difficulty

/-- `Block.calculate_hash`: digest of the block data plus the current nonce. -/
def Block.calculate_hash (H : String → String) (b : Block) : String :=
  H (b.get_block_data ++ toString b.nonce)

/-- `hash_result.startswith("0" * difficulty)`: the hex digest has at least
`d` leading zero characters. -/
def hashMeets (h : String) (d : Nat) : Bool :=
  (List.replicate d '0').isPrefixOf h.data

/-- The demo ceiling of the source: `if attempts > 10_000_000: break`. -/
def maxAttempts : Nat := 10000000

/-- The nonce-search loop of `Block.mine_block`.  The source iterates
`attempts` from 1 and breaks out (returning `None`) once
`attempts > 10_000_000`, so exactly `maxAttempts + 1` nonces are tried;
the remaining-iteration budget is the structural argument.  On success it
returns the winning nonce and the attempt count. -/
def mineLoop (H : String → String) (b : Block) : Nat → Nat → Nat → Option (Nat × Nat)
  | _, _, 0 => none
  | nonce, attempts, f + 1 =>
    let hash_result := Block.calculate_hash H { b with nonce := nonce }
    if hashMeets hash_result b.difficulty then some (nonce, attempts + 1)
    else mineLoop H b (nonce + 1) (attempts + 1) f

/-- The full nonce search of `Block.mine_block`, starting from the block's
current nonce with `attempts = 0`. -/
def mineSearch (H : String → String) (b : Block) : Option (Nat × Nat) :=
  mineLoop H b b.nonce 0 (maxAttempts + 1)

/-- The statistics dictionary `Block.mine_block` returns on success. -/
structure MiningStats where
  hash : String
  nonce : Nat
  attempts : Nat
  mining_time : ℚ
  hash_rate : ℚ
  difficulty : Nat
deriving DecidableEq, Repr

/-- `Block.mine_block`: runs the nonce search; on success returns the
statistics record (with `elapsed` the observed wall time and
`hash_rate = attempts / elapsed` guarded to 0 when the elapsed time is not
positive, as in the source), on exhaustion returns `None`. -/
def Block.mine_block (H : String → String) (b : Block) (elapsed : ℚ) :
    Option MiningStats :=
  match mineSearch H b with
  | some (n, att) =>
      some { hash := Block.calculate_hash H { b with nonce := n }
           , nonce := n
           , attempts := att
           , mining_time := elapsed
           , hash_rate := if 0 < elapsed then (att : ℚ) / elapsed else 0
           , difficulty := b.difficulty }
  | none => none

/-- The balances dict: an insertion-ordered association list. -/
abbrev Balances := List (String × ℚ)

/-- `self.balances.get(a, 0)`. -/
def getBal (bs : Balances) (a : String) : ℚ :=
  match bs.find? (fun p => p.1 == a) with
  | some p => p.2
  | none => 0

/-- `a in self.balances`. -/
def hasKey (bs : Balances) (a : String) : Bool :=
  bs.any (fun p => p.1 == a)

/-- `self.balances[a] += d` for an existing key (dict update in place). -/
def addBal (bs : Balances) (a : String) (d : ℚ) : Balances :=
  bs.map (fun p => if p.1 == a then (p.1, p.2 + d) else p)

/-- First statement of the `update_balances` body:
`if tx.sender in self.balances: self.balances[tx.sender] -= (amount + fee)`. -/
def debitSender (bs : Balances) (tx : Transaction) : Balances :=
  if hasKey bs tx.sender then addBal bs tx.sender (-(tx.amount + tx.fee)) else bs

/-- Second statement of the `update_balances` body:
`if tx.receiver not in self.balances: self.balances[tx.receiver] = 0`. -/
def ensureKey (bs : Balances) (r : String) : Balances :=
  if hasKey bs r then bs else bs ++ [(r, 0)]

/-- The body of `update_balances` for one transaction: debit the sender if
known, create the receiver at 0 if absent, credit the receiver. -/
def applyTx (bs : Balances) (tx : Transaction) : Balances :=
  addBal (ensureKey (debitSender bs tx) tx.receiver) tx.receiver tx.amount

/-- `SimpleBitcoinBlockchain.update_balances`. -/
def update_balances (bs : Balances) (txs : List Transaction) : Balances :=
  txs.foldl applyTx bs

/-- The sum of all recorded balances. -/
def sumBal (bs : Balances) : ℚ := (bs.map Prod.snd).sum

/-- The keys of the balances dict, in insertion order. -/
def keysOf (bs : Balances) : List String := bs.map Prod.fst

/-- `SimpleBitcoinBlockchain` state. -/
structure Chain where
  chain : List Block
  difficulty : Nat
  mining_reward : ℚ
  transaction_pool : List Transaction
  balances : Balances
deriving DecidableEq, Repr, Inhabited

/-- Construction of a `Block` as every call site of the source does it
(`merkle_root=""`, recomputed by `__post_init__`; `nonce=0`). -/
def mkBlock (H : String → String) (index : Nat) (timestamp : ℚ)
    (txs : List Transaction) (previous_hash : String) (difficulty : Nat) : Block :=
  { index := index, timestamp := timestamp, transactions := txs
  , previous_hash := previous_hash
  , merkle_root := calculate_merkle_root H txs
  , nonce := 0, difficulty := difficulty }

/-- `SimpleBitcoinBlockchain.__init__` plus `create_genesis_block`, with the
two wall-clock readings passed in.  The source appends the genesis block
and then subscripts the mining result, which raises (so no object is ever
produced) when the genesis nonce search is exhausted; this is modelled by
returning `none` in that case. -/
def Chain.new (H : String → String) (tg tb : ℚ) : Option Chain :=
  let genesis_tx : Transaction :=
    { sender := "genesis", receiver := "miner1", amount := 100, fee := 1/1000, timestamp := tg }
  let genesis_block := mkBlock H 0 tb [genesis_tx] zeros64 4
  match mineSearch H genesis_block with
  | some (n, _) =>
      some { chain := [{ genesis_block with nonce := n }]
           , difficulty := 4
           , mining_reward := 50
           , transaction_pool := []
           , balances := update_balances [("genesis", 1000000)] [genesis_tx] }
  | none => none

/-- `SimpleBitcoinBlockchain.add_transaction`: returns the source's boolean
together with the updated state. -/
def Chain.add_transaction (c : Chain) (tx : Transaction) : Bool × Chain :=
  if !tx.is_valid then (false, c)
  else
    let sender_balance := getBal c.balances tx.sender
    let total_required := tx.amount + tx.fee
    if sender_balance < total_required then (false, c)
    else (true, { c with transaction_pool := c.transaction_pool ++ [tx] })

/-- The coinbase transaction `mine_block` mints for the miner. -/
def Chain.rewardTx (c : Chain) (miner : String) (tc : ℚ) : Transaction :=
  { sender := "coinbase", receiver := miner, amount := c.mining_reward
  , fee := 0, timestamp := tc }

/-- `total_fees = sum(tx.fee for tx in self.transaction_pool)`. -/
def Chain.totalFees (c : Chain) : ℚ :=
  (c.transaction_pool.map Transaction.fee).sum

/-- The synthetic fee-payout transaction minted when the pooled fees are
positive. -/
def Chain.feeTx (c : Chain) (miner : String) (tf : ℚ) : Transaction :=
  { sender := "fees", receiver := miner, amount := c.totalFees
  , fee := 0, timestamp := tf }

/-- The transaction list of the candidate block:
`[coinbase_tx, fee_tx] + pool` when the pooled fees are positive,
`[coinbase_tx] + pool` otherwise. -/
def Chain.blockTxs (c : Chain) (miner : String) (tc tf : ℚ) : List Transaction :=
  if 0 < c.totalFees then c.rewardTx miner tc :: c.feeTx miner tf :: c.transaction_pool
  else c.rewardTx miner tc :: c.transaction_pool

/-- `self.get_latest_block().calculate_hash()`; the source indexes
`chain[-1]` and would raise on an empty chain, which no constructed state
has — the empty case yields a dummy value here. -/
def Chain.tipHash (H : String → String) (c : Chain) : String :=
  match c.chain.getLast? with
  | some b => Block.calculate_hash H b
  | none => ""

/-- The candidate block `mine_block` assembles before mining. -/
def Chain.candidate (H : String → String) (c : Chain) (miner : String)
    (tc tf tb : ℚ) : Block :=
  mkBlock H c.chain.length tb (c.blockTxs miner tc tf) (c.tipHash H) c.difficulty

/-- `SimpleBitcoinBlockchain.mine_block`, with the three wall-clock readings
passed in: `None` on an empty mempool; otherwise mine the candidate; on
success append it, apply the balances of its full transaction list and
clear the mempool; on exhaustion leave the state untouched. -/
def Chain.mine_block (H : String → String) (c : Chain) (miner : String)
    (tc tf tb : ℚ) : Option Block × Chain :=
  if c.transaction_pool.isEmpty then (none, c)
  else
    match mineSearch H (c.candidate H miner tc tf tb) with
    | some (n, _) =>
        let nb := { c.candidate H miner tc tf tb with nonce := n }
        (some nb,
         { c with chain := c.chain ++ [nb]
                , balances := update_balances c.balances (c.blockTxs miner tc tf)
                , transaction_pool := [] })
    | none => (none, c)

/-- `SimpleBitcoinBlockchain.adjust_difficulty`. -/
def Chain.adjust_difficulty (c : Chain) : Chain :=
  if c.chain.length < 10 then c
  else
    let recent := c.chain.drop (c.chain.length - 10)
    let time_diff := (recent.getLastD default).timestamp - (recent.headD default).timestamp
    let average_time := time_diff / 9
    let target_time : ℚ := 10
    if average_time < target_time * (8/10) then
      { c with difficulty := c.difficulty + 1 }
    else if target_time * (12/10) < average_time then
      { c with difficulty := max 1 (c.difficulty - 1) }
    else c

/-- The loop body of `is_chain_valid` from index `i = 1` on: each block must
hash below its own stated difficulty and link to the recomputed hash of its
predecessor (the source's early-return if-chain, written as a conjunction). -/
def chainValidFrom (H : String → String) : Block → List Block → Bool
  | _, [] => true
  | prev, b :: rest =>
    hashMeets (Block.calculate_hash H b) b.difficulty &&
    (b.previous_hash == Block.calculate_hash H prev) &&
    chainValidFrom H b rest

/-- The `for i in range(1, len(chain))` loop of `is_chain_valid` over a block
list (vacuously true on fewer than two blocks, as in the source). -/
def chainValidAll (H : String → String) : List Block → Bool
  | [] => true
  | b :: rest => chainValidFrom H b rest

/-- `SimpleBitcoinBlockchain.is_chain_valid`. -/
def Chain.is_chain_valid (H : String → String) (c : Chain) : Bool :=
  chainValidAll H c.chain

/-- `SimpleBitcoinBlockchain.get_balance`. -/
def Chain.get_balance (c : Chain) (a : String) : ℚ := getBal c.balances a

/-- One public mutation of the chain state: `add_transaction`, `mine_block`
(with arbitrary wall-clock readings) or `adjust_difficulty`. -/
inductive Step (H : String → String) : Chain → Chain → Prop
  | submit (c : Chain) (tx : Transaction) : Step H c (c.add_transaction tx).2
  | mine (c : Chain) (miner : String) (tc tf tb : ℚ) :
      Step H c (Chain.mine_block H c miner tc tf tb).2
  | adjust (c : Chain) : Step H c c.adjust_difficulty

/-- States reachable from a given state by any sequence of public calls. -/
inductive ReachableFrom (H : String → String) : Chain → Chain → Prop
  | refl (c : Chain) : ReachableFrom H c c
  | tail {a b c' : Chain} : ReachableFrom H a b → Step H b c' → ReachableFrom H a c'

/-! ### Specification-side definitions

These follow the wording of the specification (not the source) and are
compared against the source-side definitions above. -/

/-- Spec wording for one Merkle level: concatenate adjacent pairs and hash,
duplicating the last hash when the level has odd length. -/
def specPairUp (H : String → String) : List String → List String
  | a :: b :: rest => H (a ++ b) :: specPairUp H rest
  | [a] => [H (a ++ a)]
  | [] => []

/-- Spec wording for the Merkle root of a list of hashes: repeatedly form
the parent level until a single hash remains (sentinel for an empty list). -/
def specMerkleRoot (H : String → String) (l : List String) : String :=
  if h : 2 ≤ l.length then specMerkleRoot H (specPairUp H l) else l.headD zeros64
termination_by l.length
decreasing_by
  have key : ∀ (n : Nat) (m : List String), m.length ≤ n →
      (specPairUp H m).length = (m.length + 1) / 2 := by
    intro n
    induction n with
    | zero =>
      intro m hm
      cases m with
      | nil => simp [specPairUp]
      | cons a t => simp at hm
    | succ k ih =>
      intro m hm
      cases m with
      | nil => simp [specPairUp]
      | cons a t =>
        cases t with
        | nil => simp [specPairUp]
        | cons b r =>
          have hr : r.length ≤ k := by simp at hm; omega
          have hlen := ih r hr
          simp only [specPairUp, List.length_cons, hlen]
          omega
  have h2 := key l.length l le_rfl
  omega

/-! ### Concrete fixtures used by witnesses and counterexamples -/

/-- A concrete, fully computable stand-in for SHA-256 used to instantiate
the abstract digest `H` at witnesses: content-dependent, and every output
has four leading zeros so that difficulty-4 mining succeeds immediately. -/
def H1 (s : String) : String :=
  "0000" ++ String.mk (Nat.toDigits 16
    (s.data.foldl (fun a c => (a * 31 + c.toNat) % 1000000007) 7))

/-- A small pool transaction used by witnesses. -/
def txA : Transaction :=
  { sender := "a", receiver := "b", amount := 1, fee := 1/1000, timestamp := 0 }

/-- A concrete block (difficulty 0) used as a committed tip in fixtures. -/
def blkEx : Block :=
  { index := 0, timestamp := 0, transactions := [], previous_hash := zeros64
  , merkle_root := zeros64, nonce := 0, difficulty := 0 }

/-- A concrete chain state with an empty mempool. -/
def cEx : Chain :=
  { chain := [blkEx], difficulty := 0, mining_reward := 50
  , transaction_pool := [], balances := [("a", 100)] }

/-- `cEx` with one pooled transaction. -/
def cM : Chain := { cEx with transaction_pool := [txA] }

/-- The chain produced by `Chain.new` under the concrete digest `H1`. -/
def cG : Chain := (Chain.new H1 0 0).getD cEx

/-- The spec scenario submission: miner1 sends 25 to alice with the default
fee 0.001. -/
def txS : Transaction :=
  { sender := "miner1", receiver := "alice", amount := 25, fee := 1/1000, timestamp := 0 }

/-- The chain after the spec scenario: genesis, submit `txS`, mine as miner1. -/
def cScenario : Chain :=
  (Chain.mine_block H1 (cG.add_transaction txS).2 "miner1" 0 0 0).2

/-- A block with its stored transaction list erased; two blocks with the
same `stripTxs` image agree on every stored field except the transaction
list. -/
def stripTxs (b : Block) : Block := { b with transactions := [] }

/-- `cScenario` with the stored transaction list of its committed block 1
tampered after the fact (all other stored fields left as committed). -/
def cTampered : Chain :=
  { cScenario with chain :=
      cScenario.chain.map (fun b => if b.index = 1 then { b with transactions := [] } else b) }

/-- The block mined from `cM` by miner "m" under `H1`. -/
def wBlk : Block := ((Chain.mine_block H1 cM "m" 0 0 0).1).getD blkEx

/-- The block mined after submitting `txA` to `cEx` and mining as "m". -/
def wBlk7 : Block :=
  ((Chain.mine_block H1 (cEx.add_transaction txA).2 "m" 0 0 0).1).getD blkEx

/-- Two-block literal chains differing only in a stored transaction list
(for the claim-8 witness). -/
def c8a : Chain :=
  { cEx with chain := [blkEx, { blkEx with index := 1, transactions := [txA] }] }

/-- `c8a` with the second block's transaction list emptied. -/
def c8b : Chain :=
  { cEx with chain := [blkEx, { blkEx with index := 1, transactions := [] }] }

/-! ### Helper lemmas about the nonce search -/

/-- A successful nonce search returns a nonce whose hash meets the block's
difficulty, with the attempt count recording the number of iterations used. -/
theorem mineLoop_some (H : String → String) (b : Block) :
    ∀ (fuel nonce attempts n a : Nat),
      mineLoop H b nonce attempts fuel = some (n, a) →
      hashMeets (Block.calculate_hash H { b with nonce := n }) b.difficulty = true ∧
      ∃ j, 1 ≤ j ∧ j ≤ fuel ∧ a = attempts + j ∧ n = nonce + (j - 1) := by
  intro fuel
  induction fuel with
  | zero => intro nonce attempts n a h; simp [mineLoop] at h
  | succ f ih =>
    intro nonce attempts n a h
    simp only [mineLoop] at h
    by_cases hc : hashMeets (Block.calculate_hash H { b with nonce := nonce }) b.difficulty = true
    · simp only [hc, if_true, Option.some.injEq, Prod.mk.injEq] at h
      obtain ⟨hn, ha⟩ := h
      subst hn; subst ha
      exact ⟨hc, 1, le_rfl, by omega, by omega, by omega⟩
    · rw [if_neg hc] at h
      obtain ⟨hm, j, h1, h2, h3, h4⟩ := ih _ _ _ _ h
      exact ⟨hm, j + 1, by omega, by omega, by omega, by omega⟩

/-- An exhausted nonce search means every nonce it tried fails the target. -/
theorem mineLoop_none (H : String → String) (b : Block) :
    ∀ (fuel nonce attempts : Nat),
      mineLoop H b nonce attempts fuel = none →
      ∀ k, k < fuel →
        hashMeets (Block.calculate_hash H { b with nonce := nonce + k }) b.difficulty = false := by
  intro fuel
  induction fuel with
  | zero => intro nonce attempts _ k hk; omega
  | succ f ih =>
    intro nonce attempts h k hk
    simp only [mineLoop] at h
    by_cases hc : hashMeets (Block.calculate_hash H { b with nonce := nonce }) b.difficulty = true
    · simp [hc] at h
    · rw [if_neg hc] at h
      cases k with
      | zero =>
        simp only [Nat.add_zero]
        cases hx : hashMeets (Block.calculate_hash H { b with nonce := nonce }) b.difficulty
        · rfl
        · exact absurd hx hc
      | succ m =>
        have := ih (nonce + 1) (attempts + 1) h m (by omega)
        simpa [Nat.add_assoc, Nat.add_comm 1 m] using this

/-! ### Helper lemmas about the Merkle computation -/

theorem getLastD_irrel {α : Type} (l : List α) (hl : l ≠ []) (d d' : α) :
    l.getLastD d = l.getLastD d' := by
  cases l with
  | nil => exact absurd rfl hl
  | cons x xs => rw [List.getLastD_cons, List.getLastD_cons]

theorem pairHash_length (H : String → String) :
    ∀ (l : List String), (pairHash H l).length = (l.length + 1) / 2
  | [] => by simp [pairHash]
  | [a] => by simp [pairHash]
  | a :: b :: rest => by
    simp only [pairHash, List.length_cons, pairHash_length H rest]
    omega

theorem specPairUp_length (H : String → String) :
    ∀ (l : List String), (specPairUp H l).length = (l.length + 1) / 2
  | [] => by simp [specPairUp]
  | [a] => by simp [specPairUp]
  | a :: b :: rest => by
    simp only [specPairUp, List.length_cons, specPairUp_length H rest]
    omega

theorem padOdd_length (l : List String) :
    (padOdd l).length = if l.length % 2 = 1 then l.length + 1 else l.length := by
  unfold padOdd
  split_ifs <;> simp

/-- The spec wording of one Merkle level agrees with the source's
pad-then-pair pass. -/
theorem specPairUp_eq_pairHash_padOdd (H : String → String) :
    ∀ (l : List String), specPairUp H l = pairHash H (padOdd l)
  | [] => by simp [specPairUp, padOdd, pairHash]
  | [a] => by simp [specPairUp, padOdd, pairHash]
  | a :: b :: rest => by
    have hpad : padOdd (a :: b :: rest) = a :: b :: padOdd rest := by
      unfold padOdd
      by_cases hr : rest.length % 2 = 1
      · have hne : rest ≠ [] := by
          intro hnil
          rw [hnil] at hr
          simp at hr
        have hcond : (a :: b :: rest).length % 2 = 1 := by simp [Nat.add_mod, hr]
        rw [if_pos hcond, if_pos hr]
        rw [List.getLastD_cons, List.getLastD_cons]
        rw [getLastD_irrel rest hne b ""]
        simp
      · have hcond : ¬ (a :: b :: rest).length % 2 = 1 := by
          simp only [List.length_cons]
          omega
        rw [if_neg hcond, if_neg hr]
    rw [hpad]
    simp only [specPairUp, pairHash]
    rw [specPairUp_eq_pairHash_padOdd H rest]

/-- The source's fuelled while-loop computes exactly the spec's repeated
pairing, and the fuel `l.length` never runs out: the loop ends with a
single hash. -/
theorem merkleLoopF_run (H : String → String) :
    ∀ (f : Nat) (l : List String), l ≠ [] → l.length ≤ f →
      merkleLoopF H f l = [specMerkleRoot H l] := by
  intro f
  induction f with
  | zero =>
    intro l hne hlen
    cases l with
    | nil => exact absurd rfl hne
    | cons x xs => simp at hlen
  | succ k ih =>
    intro l hne hlen
    by_cases h2 : 1 < l.length
    · rw [merkleLoopF, if_pos h2]
      have hlen' : (pairHash H (padOdd l)).length = ((padOdd l).length + 1) / 2 :=
        pairHash_length H _
      have hpodd := padOdd_length l
      have hne' : pairHash H (padOdd l) ≠ [] := by
        apply List.ne_nil_of_length_pos
        rw [hlen', hpodd]
        split_ifs <;> omega
      have hle' : (pairHash H (padOdd l)).length ≤ k := by
        rw [hlen', hpodd]
        split_ifs with hsp
        · omega
        · omega
      have hstep : specMerkleRoot H l = specMerkleRoot H (pairHash H (padOdd l)) := by
        rw [specMerkleRoot]
        rw [dif_pos (by omega : 2 ≤ l.length)]
        rw [specPairUp_eq_pairHash_padOdd]
      rw [ih _ hne' hle', hstep]
    · have h1 : l.length = 1 := by
        have := List.length_pos.mpr hne
        omega
      obtain ⟨x, hx⟩ : ∃ x, l = [x] := List.length_eq_one.mp h1
      subst hx
      rw [merkleLoopF, if_neg h2]
      rw [specMerkleRoot]
      rw [dif_neg (by simp)]
      rfl

/-! ### Helper lemmas about the balances dict -/

theorem hasKey_cons (k : String) (v : ℚ) (ps : Balances) (m : String) :
    hasKey ((k, v) :: ps) m = ((k == m) || hasKey ps m) := rfl

theorem addBal_cons (k : String) (v : ℚ) (ps : Balances) (a : String) (d : ℚ) :
    addBal ((k, v) :: ps) a d =
      (if k == a then (k, v + d) else (k, v)) :: addBal ps a d := rfl

theorem getBal_cons (k : String) (v : ℚ) (ps : Balances) (m : String) :
    getBal ((k, v) :: ps) m = if k == m then v else getBal ps m := by
  unfold getBal
  cases hk : (k == m) <;> simp [List.find?, hk]

theorem sumBal_cons (k : String) (v : ℚ) (ps : Balances) :
    sumBal ((k, v) :: ps) = v + sumBal ps := by
  unfold sumBal
  simp

theorem keysOf_cons (k : String) (v : ℚ) (ps : Balances) :
    keysOf ((k, v) :: ps) = k :: keysOf ps := rfl

theorem hasKey_iff (bs : Balances) (a : String) :
    hasKey bs a = true ↔ a ∈ keysOf bs := by
  unfold hasKey keysOf
  simp only [List.any_eq_true, List.mem_map, beq_iff_eq]

theorem hasKey_eq_of_keysOf_eq (bs1 bs2 : Balances) (a : String)
    (h : keysOf bs1 = keysOf bs2) : hasKey bs1 a = hasKey bs2 a := by
  cases hx : hasKey bs2 a with
  | true => exact (hasKey_iff bs1 a).mpr (h ▸ (hasKey_iff bs2 a).mp hx)
  | false =>
    cases hy : hasKey bs1 a with
    | false => rfl
    | true =>
      rw [(hasKey_iff bs2 a).mpr (h ▸ (hasKey_iff bs1 a).mp hy)] at hx
      exact absurd hx (by simp)

theorem getBal_absent (bs : Balances) (m : String) (h : hasKey bs m = false) :
    getBal bs m = 0 := by
  induction bs with
  | nil => rfl
  | cons p ps ih =>
    obtain ⟨k, v⟩ := p
    rw [hasKey_cons, Bool.or_eq_false_iff] at h
    rw [getBal_cons, if_neg (by simp [h.1]), ih h.2]

theorem addBal_absent (bs : Balances) (a : String) (d : ℚ) (h : hasKey bs a = false) :
    addBal bs a d = bs := by
  induction bs with
  | nil => rfl
  | cons p ps ih =>
    obtain ⟨k, v⟩ := p
    rw [hasKey_cons, Bool.or_eq_false_iff] at h
    rw [addBal_cons, if_neg (by simp [h.1]), ih h.2]

theorem keysOf_addBal (bs : Balances) (a : String) (d : ℚ) :
    keysOf (addBal bs a d) = keysOf bs := by
  induction bs with
  | nil => rfl
  | cons p ps ih =>
    obtain ⟨k, v⟩ := p
    rw [addBal_cons]
    by_cases hk : (k == a) = true
    · rw [if_pos hk, keysOf_cons, keysOf_cons, ih]
    · rw [if_neg hk, keysOf_cons, keysOf_cons, ih]

theorem keysOf_append_single (bs : Balances) (r : String) (x : ℚ) :
    keysOf (bs ++ [(r, x)]) = keysOf bs ++ [r] := by
  unfold keysOf
  simp

theorem getBal_addBal_ne (bs : Balances) (a m : String) (d : ℚ) (h : a ≠ m) :
    getBal (addBal bs a d) m = getBal bs m := by
  induction bs with
  | nil => rfl
  | cons p ps ih =>
    obtain ⟨k, v⟩ := p
    rw [addBal_cons]
    by_cases hk : (k == a) = true
    · have hkm : (k == m) = false := by
        have hka : k = a := by simpa using hk
        simp [hka, h]
      rw [if_pos hk, getBal_cons, getBal_cons, hkm, ih]
      simp
    · rw [if_neg hk, getBal_cons, getBal_cons, ih]

theorem getBal_addBal_self (bs : Balances) (m : String) (d : ℚ)
    (h : hasKey bs m = true) :
    getBal (addBal bs m d) m = getBal bs m + d := by
  induction bs with
  | nil => simp [hasKey] at h
  | cons p ps ih =>
    obtain ⟨k, v⟩ := p
    rw [hasKey_cons, Bool.or_eq_true] at h
    rw [addBal_cons]
    by_cases hk : (k == m) = true
    · rw [if_pos hk, getBal_cons, getBal_cons, if_pos hk, if_pos hk]
    · rw [if_neg hk, getBal_cons, getBal_cons, if_neg hk, if_neg hk]
      exact ih (h.resolve_left (by simp [hk]))

theorem getBal_append_absent (bs : Balances) (m : String) (x : ℚ)
    (h : hasKey bs m = false) :
    getBal (bs ++ [(m, x)]) m = x := by
  induction bs with
  | nil => simp [getBal, List.find?]
  | cons p ps ih =>
    obtain ⟨k, v⟩ := p
    rw [hasKey_cons, Bool.or_eq_false_iff] at h
    rw [List.cons_append, getBal_cons, if_neg (by simp [h.1]), ih h.2]

theorem getBal_append_ne (bs : Balances) (r m : String) (x : ℚ) (h : r ≠ m) :
    getBal (bs ++ [(r, x)]) m = getBal bs m := by
  induction bs with
  | nil =>
    have hrm : (r == m) = false := by simp [h]
    simp [getBal, List.find?, hrm]
  | cons p ps ih =>
    obtain ⟨k, v⟩ := p
    rw [List.cons_append, getBal_cons, getBal_cons, ih]

theorem sumBal_append_single (bs : Balances) (r : String) (x : ℚ) :
    sumBal (bs ++ [(r, x)]) = sumBal bs + x := by
  unfold sumBal
  simp

theorem sumBal_addBal_self (bs : Balances) (m : String) (d : ℚ)
    (hnd : (keysOf bs).Nodup) (h : hasKey bs m = true) :
    sumBal (addBal bs m d) = sumBal bs + d := by
  induction bs with
  | nil => simp [hasKey] at h
  | cons p ps ih =>
    obtain ⟨k, v⟩ := p
    rw [keysOf_cons, List.nodup_cons] at hnd
    rw [hasKey_cons, Bool.or_eq_true] at h
    rw [addBal_cons]
    by_cases hk : (k == m) = true
    · have hkm : k = m := by simpa using hk
      subst hkm
      have habs : hasKey ps k = false := by
        cases hx : hasKey ps k
        · rfl
        · exact absurd ((hasKey_iff ps k).mp hx) hnd.1
      rw [if_pos hk, sumBal_cons, sumBal_cons, addBal_absent ps k d habs]
      ring
    · rw [if_neg hk, sumBal_cons, sumBal_cons, ih hnd.2 (h.resolve_left (by simp [hk]))]
      ring

theorem keysOf_debitSender (bs : Balances) (tx : Transaction) :
    keysOf (debitSender bs tx) = keysOf bs := by
  unfold debitSender
  split_ifs
  · exact keysOf_addBal bs tx.sender _
  · rfl

theorem sumBal_debitSender (bs : Balances) (tx : Transaction)
    (hnd : (keysOf bs).Nodup) :
    sumBal (debitSender bs tx) =
      sumBal bs - (if hasKey bs tx.sender then tx.amount + tx.fee else 0) := by
  unfold debitSender
  split_ifs with hs
  · rw [sumBal_addBal_self bs tx.sender _ hnd hs]
    ring
  · ring

theorem getBal_debitSender_ne (bs : Balances) (tx : Transaction) (m : String)
    (h : tx.sender ≠ m) :
    getBal (debitSender bs tx) m = getBal bs m := by
  unfold debitSender
  split_ifs with hs
  · exact getBal_addBal_ne bs tx.sender m _ h
  · rfl

theorem keysOf_ensureKey (bs : Balances) (r : String) :
    keysOf (ensureKey bs r) =
      if hasKey bs r then keysOf bs else keysOf bs ++ [r] := by
  unfold ensureKey
  split_ifs with h
  · rfl
  · exact keysOf_append_single bs r 0

theorem hasKey_ensureKey_self (bs : Balances) (r : String) :
    hasKey (ensureKey bs r) r = true := by
  unfold ensureKey
  split_ifs with h
  · exact h
  · rw [hasKey_iff, keysOf_append_single]
    exact List.mem_append_right _ (by simp)

theorem sumBal_ensureKey (bs : Balances) (r : String) :
    sumBal (ensureKey bs r) = sumBal bs := by
  unfold ensureKey
  split_ifs with h
  · rfl
  · rw [sumBal_append_single]
    ring

theorem nodup_ensureKey (bs : Balances) (r : String)
    (hnd : (keysOf bs).Nodup) : (keysOf (ensureKey bs r)).Nodup := by
  rw [keysOf_ensureKey]
  split_ifs with h
  · exact hnd
  · have hnot : r ∉ keysOf bs := fun hmem => h ((hasKey_iff bs r).mpr hmem)
    rw [List.nodup_append]
    exact ⟨hnd, List.nodup_singleton r,
      fun a ha hb => hnot ((List.mem_singleton.mp hb) ▸ ha)⟩

theorem getBal_ensureKey_self (bs : Balances) (r : String) :
    getBal (ensureKey bs r) r = getBal bs r := by
  unfold ensureKey
  split_ifs with h
  · rfl
  · have hf : hasKey bs r = false := Bool.eq_false_iff.mpr h
    rw [getBal_append_absent bs r 0 hf, getBal_absent bs r hf]

theorem getBal_ensureKey_ne (bs : Balances) (r m : String) (h : r ≠ m) :
    getBal (ensureKey bs r) m = getBal bs m := by
  unfold ensureKey
  split_ifs with hk
  · rfl
  · exact getBal_append_ne bs r m 0 h

theorem hasKey_ensureKey_mono (bs : Balances) (r a : String)
    (h : hasKey bs a = true) : hasKey (ensureKey bs r) a = true := by
  rw [hasKey_iff, keysOf_ensureKey]
  split_ifs
  · exact (hasKey_iff bs a).mp h
  · exact List.mem_append_left _ ((hasKey_iff bs a).mp h)

/-- What one transaction does to the key list: nothing, or a new receiver
entry at the end. -/
theorem keysOf_applyTx (bs : Balances) (tx : Transaction) :
    keysOf (applyTx bs tx) =
      if hasKey bs tx.receiver then keysOf bs else keysOf bs ++ [tx.receiver] := by
  unfold applyTx
  rw [keysOf_addBal, keysOf_ensureKey,
      hasKey_eq_of_keysOf_eq _ bs tx.receiver (keysOf_debitSender bs tx),
      keysOf_debitSender]

theorem nodup_applyTx (bs : Balances) (tx : Transaction)
    (hnd : (keysOf bs).Nodup) : (keysOf (applyTx bs tx)).Nodup := by
  unfold applyTx
  rw [keysOf_addBal]
  exact nodup_ensureKey _ _ (by rw [keysOf_debitSender]; exact hnd)

theorem hasKey_mono_applyTx (bs : Balances) (tx : Transaction) (a : String)
    (h : hasKey bs a = true) : hasKey (applyTx bs tx) a = true := by
  unfold applyTx
  rw [hasKey_eq_of_keysOf_eq _ _ a (keysOf_addBal _ _ _)]
  refine hasKey_ensureKey_mono _ _ a ?_
  rw [hasKey_eq_of_keysOf_eq _ bs a (keysOf_debitSender bs tx)]
  exact h

/-- What one transaction does to the total balance: credit the amount, and
debit amount + fee exactly when the sender is a known key. -/
theorem sumBal_applyTx (bs : Balances) (tx : Transaction)
    (hnd : (keysOf bs).Nodup) :
    sumBal (applyTx bs tx) =
      sumBal bs + tx.amount -
        (if hasKey bs tx.sender then tx.amount + tx.fee else 0) := by
  unfold applyTx
  have hnd1 : (keysOf (debitSender bs tx)).Nodup := by
    rw [keysOf_debitSender]; exact hnd
  rw [sumBal_addBal_self _ tx.receiver _ (nodup_ensureKey _ _ hnd1)
        (hasKey_ensureKey_self _ _),
      sumBal_ensureKey, sumBal_debitSender bs tx hnd]
  ring

/-- What one transaction does to the balance of an address that is not its
sender: credit the amount when that address is the receiver. -/
theorem getBal_applyTx_nonsender (bs : Balances) (tx : Transaction) (m : String)
    (h : tx.sender ≠ m) :
    getBal (applyTx bs tx) m =
      getBal bs m + (if tx.receiver = m then tx.amount else 0) := by
  unfold applyTx
  by_cases hrm : tx.receiver = m
  · subst hrm
    rw [getBal_addBal_self _ tx.receiver _ (hasKey_ensureKey_self _ _),
        getBal_ensureKey_self, getBal_debitSender_ne bs tx tx.receiver h,
        if_pos rfl]
  · rw [getBal_addBal_ne _ tx.receiver m _ hrm, getBal_ensureKey_ne _ tx.receiver m hrm,
        getBal_debitSender_ne bs tx m h, if_neg hrm]
    ring

/-- A fee-free self-transfer never lowers its own address's balance: the
debit (if the key exists) and the credit cancel, and an absent key is
created and credited. -/
theorem getBal_applyTx_self_transfer (bs : Balances) (tx : Transaction)
    (hsr : tx.sender = tx.receiver) (hfee : tx.fee = 0) (hamt : 0 ≤ tx.amount) :
    getBal bs tx.receiver ≤ getBal (applyTx bs tx) tx.receiver := by
  unfold applyTx
  by_cases hk : hasKey bs tx.sender = true
  · have hkr : hasKey bs tx.receiver = true := hsr ▸ hk
    have hdeb : debitSender bs tx = addBal bs tx.sender (-(tx.amount + tx.fee)) := by
      unfold debitSender
      rw [if_pos hk]
    have hkr1 : hasKey (debitSender bs tx) tx.receiver = true := by
      rw [hasKey_eq_of_keysOf_eq _ bs tx.receiver (keysOf_debitSender bs tx)]
      exact hkr
    have hens : ensureKey (debitSender bs tx) tx.receiver = debitSender bs tx := by
      unfold ensureKey
      rw [if_pos hkr1]
    rw [hens, getBal_addBal_self _ tx.receiver _ hkr1, hdeb, hsr,
        getBal_addBal_self bs tx.receiver _ hkr, hfee]
    linarith
  · have hkf : hasKey bs tx.sender = false := Bool.eq_false_iff.mpr hk
    have hkrf : hasKey bs tx.receiver = false := hsr ▸ hkf
    have hdeb : debitSender bs tx = bs := by
      unfold debitSender
      rw [hkf]
      simp
    have hens : ensureKey (debitSender bs tx) tx.receiver = bs ++ [(tx.receiver, 0)] := by
      unfold ensureKey
      rw [hdeb, hkrf]
      simp
    have hkr2 : hasKey (bs ++ [(tx.receiver, 0)]) tx.receiver = true := by
      rw [hasKey_iff, keysOf_append_single]
      exact List.mem_append_right _ (by simp)
    rw [hens, getBal_addBal_self _ tx.receiver _ hkr2,
        getBal_append_absent bs tx.receiver 0 hkrf,
        getBal_absent bs tx.receiver hkrf]
    linarith

/-- Folding a transaction list whose senders are all known keys lowers the
total balance by exactly the total fees. -/
theorem sumBal_fold (txs : List Transaction) :
    ∀ (bs : Balances), (keysOf bs).Nodup →
      (∀ t ∈ txs, hasKey bs t.sender = true) →
      sumBal (txs.foldl applyTx bs) = sumBal bs - (txs.map Transaction.fee).sum := by
  induction txs with
  | nil => intro bs _ _; simp
  | cons t ts ih =>
    intro bs hnd hsend
    rw [List.foldl_cons]
    have h1 : sumBal (applyTx bs t) = sumBal bs - t.fee := by
      rw [sumBal_applyTx bs t hnd, if_pos (hsend t (by simp))]
      ring
    rw [ih (applyTx bs t) (nodup_applyTx bs t hnd)
        (fun u hu => hasKey_mono_applyTx bs t u.sender (hsend u (by simp [hu]))), h1]
    simp
    ring

/-- Folding a transaction list none of whose senders is `m` only credits `m`
with the amounts addressed to it. -/
theorem getBal_fold_nonsender (txs : List Transaction) :
    ∀ (bs : Balances) (m : String), (∀ t ∈ txs, t.sender ≠ m) →
      getBal (txs.foldl applyTx bs) m =
        getBal bs m + (txs.map (fun t => if t.receiver = m then t.amount else 0)).sum := by
  induction txs with
  | nil => intro bs m _; simp
  | cons t ts ih =>
    intro bs m hsend
    rw [List.foldl_cons,
        ih (applyTx bs t) m (fun u hu => hsend u (by simp [hu])),
        getBal_applyTx_nonsender bs t m (hsend t (by simp))]
    simp
    ring

/-! ### Helper lemmas about chain validity -/

theorem getLast?_cons_getLastD {α : Type} (x : α) (t : List α) :
    (x :: t).getLast? = some (t.getLastD x) := by
  induction t generalizing x with
  | nil => rfl
  | cons y ys ih => rw [List.getLast?_cons_cons, ih, List.getLastD_cons]

theorem tipHash_cons (H : String → String) (c : Chain) (x : Block) (t : List Block)
    (hc : c.chain = x :: t) :
    c.tipHash H = Block.calculate_hash H (t.getLastD x) := by
  unfold Chain.tipHash
  rw [hc, getLast?_cons_getLastD]

theorem chainValidFrom_append (H : String → String) (nb : Block) :
    ∀ (l : List Block) (p : Block),
      chainValidFrom H p l = true →
      hashMeets (Block.calculate_hash H nb) nb.difficulty = true →
      nb.previous_hash = Block.calculate_hash H (l.getLastD p) →
      chainValidFrom H p (l ++ [nb]) = true := by
  intro l
  induction l with
  | nil =>
    intro p h1 h2 h3
    simp [chainValidFrom, h2, h3]
  | cons x xs ih =>
    intro p h1 h2 h3
    rw [List.getLastD_cons] at h3
    simp only [List.cons_append, chainValidFrom, Bool.and_eq_true] at h1 ⊢
    exact ⟨h1.1, ih x h1.2 h2 h3⟩

theorem add_transaction_state (c : Chain) (tx : Transaction) :
    ((c.add_transaction tx).2).chain = c.chain ∧
    ((c.add_transaction tx).2).balances = c.balances ∧
    ((c.add_transaction tx).2).difficulty = c.difficulty ∧
    ((c.add_transaction tx).2).mining_reward = c.mining_reward := by
  unfold Chain.add_transaction
  cases hv : tx.is_valid with
  | false => simp
  | true =>
    by_cases hb : getBal c.balances tx.sender < tx.amount + tx.fee
    · simp [hb]
    · simp [hb]

theorem adjust_difficulty_state (c : Chain) :
    (c.adjust_difficulty).chain = c.chain ∧
    (c.adjust_difficulty).balances = c.balances ∧
    (c.adjust_difficulty).transaction_pool = c.transaction_pool ∧
    (c.adjust_difficulty).mining_reward = c.mining_reward := by
  unfold Chain.adjust_difficulty
  dsimp only
  split_ifs <;> exact ⟨rfl, rfl, rfl, rfl⟩

/-- A block hash depends only on the fields kept by `stripTxs`: the stored
transaction list never enters `get_block_data`. -/
theorem calculate_hash_stripTxs (H : String → String) (b₁ b₂ : Block)
    (h : stripTxs b₁ = stripTxs b₂) :
    Block.calculate_hash H b₁ = Block.calculate_hash H b₂
    ∧ b₁.difficulty = b₂.difficulty
    ∧ b₁.previous_hash = b₂.previous_hash := by
  simp only [stripTxs, Block.mk.injEq, and_true, true_and] at h
  obtain ⟨hi, ht, hp, hm, hn, hd⟩ := h
  refine ⟨?_, hd, hp⟩
  unfold Block.calculate_hash Block.get_block_data
  rw [hi, ht, hp, hm, hn, hd]

/-- The validation loop is insensitive to stored transaction lists. -/
theorem chainValidFrom_stripTxs (H : String → String) :
    ∀ (l₁ l₂ : List Block) (p₁ p₂ : Block),
      stripTxs p₁ = stripTxs p₂ → l₁.map stripTxs = l₂.map stripTxs →
      chainValidFrom H p₁ l₁ = chainValidFrom H p₂ l₂ := by
  intro l₁
  induction l₁ with
  | nil =>
    intro l₂ p₁ p₂ hp hl
    have : l₂ = [] := by cases l₂ <;> simp_all
    subst this
    rfl
  | cons x xs ih =>
    intro l₂ p₁ p₂ hp hl
    cases l₂ with
    | nil => simp at hl
    | cons y ys =>
      simp only [List.map_cons, List.cons.injEq] at hl
      obtain ⟨hxy, hrest⟩ := hl
      obtain ⟨hhash, hdiff, hprev⟩ := calculate_hash_stripTxs H x y hxy
      obtain ⟨hph, _, _⟩ := calculate_hash_stripTxs H p₁ p₂ hp
      simp only [chainValidFrom]
      rw [hhash, hdiff, hprev, hph, ih ys x y hxy hrest]

/-- The success branch of `mine_block`, written out. -/
theorem mine_block_some (H : String → String) (c : Chain) (miner : String)
    (tc tf tb : ℚ) (n att : Nat)
    (hp : c.transaction_pool.isEmpty = false)
    (hms : mineSearch H (c.candidate H miner tc tf tb) = some (n, att)) :
    Chain.mine_block H c miner tc tf tb =
      (some { c.candidate H miner tc tf tb with nonce := n },
       { c with chain := c.chain ++ [{ c.candidate H miner tc tf tb with nonce := n }]
              , balances := update_balances c.balances (c.blockTxs miner tc tf)
              , transaction_pool := [] }) := by
  unfold Chain.mine_block
  rw [hp]
  simp only [Bool.false_eq_true, if_false, hms]

/-- Every public call preserves non-emptiness and validity of the chain. -/
theorem step_preserves_valid (H : String → String) {a b : Chain} (hs : Step H a b)
    (hne : a.chain ≠ []) (hv : a.is_chain_valid H = true) :
    b.chain ≠ [] ∧ b.is_chain_valid H = true := by
  cases hs with
  | submit tx =>
    have h := add_transaction_state a tx
    unfold Chain.is_chain_valid at hv ⊢
    rw [h.1]
    exact ⟨hne, hv⟩
  | adjust =>
    have h := adjust_difficulty_state a
    unfold Chain.is_chain_valid at hv ⊢
    rw [h.1]
    exact ⟨hne, hv⟩
  | mine miner tc tf tb =>
    by_cases hp : a.transaction_pool.isEmpty
    · unfold Chain.mine_block
      rw [hp]
      simpa using ⟨hne, hv⟩
    · cases hms : mineSearch H (a.candidate H miner tc tf tb) with
      | none =>
        unfold Chain.mine_block
        rw [Bool.eq_false_iff.mpr hp]
        simp only [Bool.false_eq_true, if_false, hms]
        exact ⟨hne, hv⟩
      | some v =>
        obtain ⟨n, att⟩ := v
        rw [mine_block_some H a miner tc tf tb n att (Bool.eq_false_iff.mpr hp) hms]
        obtain ⟨x, t, hc⟩ : ∃ x t, a.chain = x :: t := by
          cases hcc : a.chain with
          | nil => exact absurd hcc hne
          | cons x t => exact ⟨x, t, rfl⟩
        constructor
        · simp [hc]
        · have hmine := mineLoop_some H (a.candidate H miner tc tf tb)
            (maxAttempts + 1) (a.candidate H miner tc tf tb).nonce 0 n att hms
          have hmeets : hashMeets
              (Block.calculate_hash H { a.candidate H miner tc tf tb with nonce := n })
              ({ a.candidate H miner tc tf tb with nonce := n } : Block).difficulty = true := hmine.1
          have hprev : ({ a.candidate H miner tc tf tb with nonce := n } : Block).previous_hash =
              Block.calculate_hash H (t.getLastD x) := by
            show (a.candidate H miner tc tf tb).previous_hash = _
            rw [show (a.candidate H miner tc tf tb).previous_hash = a.tipHash H from rfl]
            exact tipHash_cons H a x t hc
          unfold Chain.is_chain_valid at hv ⊢
          simp only [hc] at hv ⊢
          simp only [List.cons_append]
          unfold chainValidAll at hv ⊢
          exact chainValidFrom_append H _ t x hv hmeets hprev

/-- The invariant holds in every state reachable from a valid state. -/
theorem reachable_preserves_valid (H : String → String) {a b : Chain}
    (hr : ReachableFrom H a b) (hne : a.chain ≠ []) (hv : a.is_chain_valid H = true) :
    b.chain ≠ [] ∧ b.is_chain_valid H = true := by
  induction hr with
  | refl => exact ⟨hne, hv⟩
  | tail _ hs ih => exact step_preserves_valid H hs ih.1 ih.2

/-! ### The claims -/

/-- Claim C1: every state reachable from a freshly constructed chain (by any
sequence of submit, mine and adjust-difficulty calls) satisfies
`is_valid() = true`; immediately after construction the chain holds exactly
one block, the genesis block, with index 0 and the all-zero previous hash,
and is already valid. -/
theorem claim1_reachable_valid (H : String → String) (tg tb : ℚ) (c : Chain)
    (hnew : Chain.new H tg tb = some c) :
    (c.chain.length = 1
     ∧ (c.chain.headD default).index = 0
     ∧ (c.chain.headD default).previous_hash = zeros64
     ∧ c.is_chain_valid H = true)
    ∧ (∀ c', ReachableFrom H c c' → c'.is_chain_valid H = true) := by
  unfold Chain.new at hnew
  dsimp only at hnew
  split at hnew
  · simp only [Option.some.injEq] at hnew
    subst hnew
    refine ⟨⟨rfl, rfl, rfl, rfl⟩, fun c' hr => ?_⟩
    exact (reachable_preserves_valid H hr (by simp) rfl).2
  · simp at hnew

/-- Claim C1 witness: under the concrete digest `H1`, construction succeeds
and produces a singleton valid chain whose genesis block has index 0 and the
all-zero previous hash. -/
theorem claim1_witness :
    Chain.new H1 0 0 = some cG
    ∧ cG.chain.length = 1
    ∧ (cG.chain.headD default).index = 0
    ∧ (cG.chain.headD default).previous_hash = zeros64
    ∧ cG.is_chain_valid H1 = true := by
  have hnew : Chain.new H1 0 0 = some cG := by decide
  have h := claim1_reachable_valid H1 0 0 cG hnew
  exact ⟨hnew, h.1.1, h.1.2.1, h.1.2.2.1, h.1.2.2.2⟩

/-- Claim C3: `submit_transaction` succeeds exactly when the transaction is
structurally valid and the sender's recorded balance (0 for an unknown
sender) covers amount + fee; on success the transaction is appended to the
mempool with balances untouched, on either failure the state is unchanged,
and the outcome is observable as the returned boolean. -/
theorem claim3_add_transaction (c : Chain) (tx : Transaction) :
    ((c.add_transaction tx).1 = true ↔
      (tx.is_valid = true ∧ tx.amount + tx.fee ≤ getBal c.balances tx.sender))
    ∧ ((c.add_transaction tx).1 = true →
        (c.add_transaction tx).2 = { c with transaction_pool := c.transaction_pool ++ [tx] })
    ∧ ((c.add_transaction tx).1 = false → (c.add_transaction tx).2 = c)
    ∧ ((c.add_transaction tx).2).balances = c.balances
    ∧ ((c.add_transaction tx).2).chain = c.chain := by
  unfold Chain.add_transaction
  cases hv : tx.is_valid with
  | false => simp [hv]
  | true =>
    by_cases hb : getBal c.balances tx.sender < tx.amount + tx.fee
    · simp [hv, hb, not_le.mpr hb]
    · simp [hv, hb, not_lt.mp hb]

/-- Claim C6: `adjust_difficulty` is a no-op on fewer than 10 blocks;
otherwise it compares the average of the last 9 inter-block intervals (the
last timestamp minus the 10th-most-recent timestamp, divided by 9) against
a target of 10 time-units, incrementing the difficulty below 0.8 times the
target and decrementing it (floored at 1) above 1.2 times the target; no
other field of the state changes. -/
theorem claim6_adjust_difficulty (c : Chain) :
    (c.adjust_difficulty).chain = c.chain
    ∧ (c.adjust_difficulty).transaction_pool = c.transaction_pool
    ∧ (c.adjust_difficulty).balances = c.balances
    ∧ (c.adjust_difficulty).mining_reward = c.mining_reward
    ∧ (c.adjust_difficulty).difficulty =
        (if c.chain.length < 10 then c.difficulty else
          (let avg := ((c.chain.getLastD default).timestamp -
              (c.chain.getD (c.chain.length - 10) default).timestamp) / 9
           if avg < (10 : ℚ) * (8/10) then c.difficulty + 1
           else if (10 : ℚ) * (12/10) < avg then max 1 (c.difficulty - 1)
           else c.difficulty)) := by
  unfold Chain.adjust_difficulty
  by_cases hlen : c.chain.length < 10
  · simp [hlen]
  · have hhead : ((c.chain.drop (c.chain.length - 10)).headD default) =
        c.chain.getD (c.chain.length - 10) default := by
      simp [List.headD_eq_head?_getD, List.head?_drop]
    have htail : ((c.chain.drop (c.chain.length - 10)).getLastD default) =
        c.chain.getLastD default := by
      rw [List.getLastD_eq_getLast?, List.getLastD_eq_getLast?, List.getLast?_drop]
      have hno : ¬ (c.chain.length ≤ c.chain.length - 10) := by omega
      simp [hno]
    rw [if_neg hlen]
    rw [if_neg hlen]
    simp only [hhead, htail]
    split_ifs <;> simp

/-- Claim C2: a successful `mine_pending` on a non-empty mempool appends one
block whose transaction list is the coinbase reward (for the chain's fixed
mining reward, fee 0), then the synthetic fee payout exactly when the pooled
fees are positive, then the pooled transactions in submission order; the
block carries index = previous chain length, previous hash = the previous
tip's recomputed hash, the current chain difficulty, and the Merkle root of
that list; the balances are applied for the full list and the mempool is
cleared. -/
theorem claim2_mine_success (H : String → String) (c : Chain) (miner : String)
    (tc tf tb : ℚ) (blk : Block)
    (hchain : c.chain ≠ [])
    (hsome : (Chain.mine_block H c miner tc tf tb).1 = some blk) :
    c.transaction_pool ≠ []
    ∧ blk.transactions =
        { sender := "coinbase", receiver := miner, amount := c.mining_reward
        , fee := 0, timestamp := tc } ::
        ((if 0 < (c.transaction_pool.map Transaction.fee).sum then
            [{ sender := "fees", receiver := miner
             , amount := (c.transaction_pool.map Transaction.fee).sum
             , fee := 0, timestamp := tf }]
          else []) ++ c.transaction_pool)
    ∧ blk.index = c.chain.length
    ∧ blk.previous_hash = Block.calculate_hash H (c.chain.getLastD default)
    ∧ blk.difficulty = c.difficulty
    ∧ blk.merkle_root = calculate_merkle_root H blk.transactions
    ∧ (Chain.mine_block H c miner tc tf tb).2 =
        { c with chain := c.chain ++ [blk]
               , balances := update_balances c.balances blk.transactions
               , transaction_pool := [] } := by
  by_cases hp : c.transaction_pool.isEmpty
  · unfold Chain.mine_block at hsome
    rw [hp] at hsome
    simp at hsome
  · have hpf : c.transaction_pool.isEmpty = false := Bool.eq_false_iff.mpr hp
    cases hms : mineSearch H (c.candidate H miner tc tf tb) with
    | none =>
      unfold Chain.mine_block at hsome
      rw [hpf] at hsome
      simp [hms] at hsome
    | some v =>
      obtain ⟨n, att⟩ := v
      have hmb := mine_block_some H c miner tc tf tb n att hpf hms
      rw [hmb] at hsome
      simp only [Option.some.injEq] at hsome
      subst hsome
      obtain ⟨x, t, hc⟩ : ∃ x t, c.chain = x :: t := by
        cases hcc : c.chain with
        | nil => exact absurd hcc hchain
        | cons x t => exact ⟨x, t, rfl⟩
      have hlast : c.chain.getLastD default = t.getLastD x := by
        rw [hc, List.getLastD_cons]
      have htx : ({ c.candidate H miner tc tf tb with nonce := n } : Block).transactions =
          ({ sender := "coinbase", receiver := miner, amount := c.mining_reward
           , fee := 0, timestamp := tc } : Transaction) ::
          ((if 0 < (c.transaction_pool.map Transaction.fee).sum then
              [{ sender := "fees", receiver := miner
               , amount := (c.transaction_pool.map Transaction.fee).sum
               , fee := 0, timestamp := tf }]
            else []) ++ c.transaction_pool) := by
        show c.blockTxs miner tc tf = _
        unfold Chain.blockTxs Chain.rewardTx Chain.feeTx Chain.totalFees
        split_ifs with h <;> simp
      refine ⟨fun hpool => hp (by simp [hpool]), htx, rfl, ?_, rfl, rfl, ?_⟩
      · show (c.candidate H miner tc tf tb).previous_hash = _
        rw [hlast]
        exact tipHash_cons H c x t hc
      · rw [hmb]
        rfl

/-- Claim C2 witness: mining the concrete one-transaction pool appends a
block with the stated index and difficulty and clears the mempool. -/
theorem claim2_witness :
    cM.chain ≠ []
    ∧ (Chain.mine_block H1 cM "m" 0 0 0).1 = some wBlk
    ∧ wBlk.index = cM.chain.length
    ∧ wBlk.difficulty = cM.difficulty
    ∧ (Chain.mine_block H1 cM "m" 0 0 0).2.transaction_pool = [] := by
  have h := claim2_mine_success H1 cM "m" 0 0 0 wBlk (by decide) (by decide)
  refine ⟨by decide, by decide, h.2.2.1, h.2.2.2.2.1, ?_⟩
  rw [h.2.2.2.2.2.2]

/-- Claim C5: the Merkle root of an empty transaction list is the fixed
64-character all-zero string; for a non-empty list it equals the result of
repeatedly pairing adjacent transaction hashes (concatenate then hash,
duplicating the last hash of an odd level) until one hash remains, and
recomputing on an identical list yields the same root. -/
theorem claim5_merkle_root (H : String → String) (txs : List Transaction) :
    (txs = [] → calculate_merkle_root H txs = zeros64)
    ∧ (txs ≠ [] → calculate_merkle_root H txs =
        specMerkleRoot H (txs.map (Transaction.get_hash H)))
    ∧ (∀ txs' : List Transaction, txs' = txs →
        calculate_merkle_root H txs' = calculate_merkle_root H txs) := by
  refine ⟨fun h => by simp [h, calculate_merkle_root],
          fun h => ?_, fun txs' h => by rw [h]⟩
  unfold calculate_merkle_root
  rw [if_neg (by simp [h])]
  have hne : txs.map (Transaction.get_hash H) ≠ [] := by simpa using h
  dsimp only
  rw [merkleLoopF_run H _ _ hne (le_refl _)]
  rfl

/-- Claim C5 witness: the source computation and the spec computation agree
on a concrete three-transaction list, and the empty list yields the
sentinel. -/
theorem claim5_witness :
    calculate_merkle_root H1 [txA, txS, txA] =
      specMerkleRoot H1 ([txA, txS, txA].map (Transaction.get_hash H1))
    ∧ calculate_merkle_root H1 ([] : List Transaction) = zeros64 := by
  have h3 := claim5_merkle_root H1 [txA, txS, txA]
  have h0 := claim5_merkle_root H1 ([] : List Transaction)
  exact ⟨h3.2.1 (by simp), h0.1 rfl⟩

/-- Claim C8 (amended): `is_valid` is insensitive to the stored transaction
lists: any two chains whose blocks agree on every stored field except the
transaction lists validate identically, because validation recomputes block
hashes from stored fields only and never re-checks the Merkle root against
the stored transactions. -/
theorem claim8_validity_ignores_transactions (H : String → String) (c₁ c₂ : Chain)
    (h : c₁.chain.map stripTxs = c₂.chain.map stripTxs) :
    c₁.is_chain_valid H = c₂.is_chain_valid H := by
  unfold Chain.is_chain_valid
  cases h₁ : c₁.chain with
  | nil =>
    cases h₂ : c₂.chain with
    | nil => rfl
    | cons y ys => rw [h₁, h₂] at h; simp at h
  | cons x xs =>
    cases h₂ : c₂.chain with
    | nil => rw [h₁, h₂] at h; simp at h
    | cons y ys =>
      rw [h₁, h₂] at h
      simp only [List.map_cons, List.cons.injEq] at h
      unfold chainValidAll
      exact chainValidFrom_stripTxs H xs ys x y h.1 h.2

/-- Claim C8 witness: two concrete two-block chains differing only in a
stored transaction list validate identically. -/
theorem claim8_witness :
    c8a.chain.map stripTxs = c8b.chain.map stripTxs
    ∧ c8a.is_chain_valid H1 = c8b.is_chain_valid H1 := by
  have h : c8a.chain.map stripTxs = c8b.chain.map stripTxs := by decide
  exact ⟨h, claim8_validity_ignores_transactions H1 c8a c8b h⟩

/-- Claim C8 counterexample: after committing a block through the public
interface and then tampering with its stored transaction list (all other
stored fields left as committed), `is_valid` still returns true, contrary
to the claim. -/
theorem claim8_counterexample :
    cScenario.is_chain_valid H1 = true
    ∧ cTampered.chain ≠ cScenario.chain
    ∧ cTampered.chain.map stripTxs = cScenario.chain.map stripTxs
    ∧ cTampered.is_chain_valid H1 = true := by decide

/-- Claim C9: `mine_pending` fails exactly when the mempool is empty or the
nonce search for the candidate block is exhausted; on failure the state is
returned unchanged (no block appended, mempool and balances untouched), and
the failure is the `none` return value, distinct from any success. -/
theorem claim9_mine_failure (H : String → String) (c : Chain) (miner : String)
    (tc tf tb : ℚ) (hchain : c.chain ≠ []) :
    ((Chain.mine_block H c miner tc tf tb).1 = none ↔
      (c.transaction_pool = [] ∨ mineSearch H (c.candidate H miner tc tf tb) = none))
    ∧ ((Chain.mine_block H c miner tc tf tb).1 = none →
        (Chain.mine_block H c miner tc tf tb).2 = c) := by
  clear hchain
  unfold Chain.mine_block
  by_cases hp : c.transaction_pool.isEmpty
  · simp [hp, List.isEmpty_iff.mp hp]
  · cases hms : mineSearch H (c.candidate H miner tc tf tb) with
    | none => simp [hp, hms]
    | some v =>
      obtain ⟨n, att⟩ := v
      have hne : c.transaction_pool ≠ [] := fun h => hp (by simp [h])
      simp [hp, hms, hne]

/-- Claim C9 witness: on a concrete state with an empty mempool, mining
fails and leaves the state unchanged. -/
theorem claim9_witness :
    (Chain.mine_block H1 cEx "m" 0 0 0).1 = none ∧
    (Chain.mine_block H1 cEx "m" 0 0 0).2 = cEx := by
  have h := claim9_mine_failure H1 cEx "m" 0 0 0 (by decide)
  have h1 : (Chain.mine_block H1 cEx "m" 0 0 0).1 = none := h.1.mpr (Or.inl rfl)
  exact ⟨h1, h.2 h1⟩

/-- Claim C4: the mining search always terminates: on success the returned
record carries the hash of the block at the final nonce (meeting the
difficulty), the final nonce, an attempt count of at most 10,000,001 (the
10,000,000-attempt ceiling plus the attempt in progress when the ceiling
check fires), the elapsed time, and a hash rate of 0 when the elapsed time
is 0; otherwise it returns the failure value `none`, distinct from every
success, and every one of the 10,000,001 tried nonces missed the target. -/
theorem claim4_mining_bounded (H : String → String) (b : Block) (elapsed : ℚ) :
    (∀ stats : MiningStats, b.mine_block H elapsed = some stats →
        stats.hash = Block.calculate_hash H { b with nonce := stats.nonce }
        ∧ hashMeets stats.hash b.difficulty = true
        ∧ 1 ≤ stats.attempts ∧ stats.attempts ≤ maxAttempts + 1
        ∧ stats.nonce = b.nonce + (stats.attempts - 1)
        ∧ stats.mining_time = elapsed
        ∧ (elapsed = 0 → stats.hash_rate = 0)
        ∧ stats.difficulty = b.difficulty)
    ∧ (b.mine_block H elapsed = none →
        ∀ k, k ≤ maxAttempts →
          hashMeets (Block.calculate_hash H { b with nonce := b.nonce + k }) b.difficulty = false) := by
  unfold Block.mine_block
  cases hms : mineSearch H b with
  | none =>
    refine ⟨fun stats h => by simp at h, fun _ k hk => ?_⟩
    exact mineLoop_none H b (maxAttempts + 1) b.nonce 0 hms k (by omega)
  | some v =>
    obtain ⟨n, att⟩ := v
    obtain ⟨hhash, j, hj1, hj2, hj3, hj4⟩ := mineLoop_some H b (maxAttempts + 1) b.nonce 0 n att hms
    refine ⟨fun stats h => ?_, fun h => by simp at h⟩
    simp only [Option.some.injEq] at h
    subst h
    dsimp only
    refine ⟨rfl, hhash, by omega, by omega, by omega, rfl, fun he => ?_, rfl⟩
    simp [he]

/-- A successful submission appends the transaction and certifies it valid
with a covered balance. -/
theorem add_transaction_success (c : Chain) (tx : Transaction)
    (h : (c.add_transaction tx).1 = true) :
    (c.add_transaction tx).2 =
      { c with transaction_pool := c.transaction_pool ++ [tx] }
    ∧ tx.is_valid = true := by
  unfold Chain.add_transaction at h ⊢
  cases hv : tx.is_valid with
  | false => rw [hv] at h; simp at h
  | true =>
    rw [hv] at h
    by_cases hb : getBal c.balances tx.sender < tx.amount + tx.fee
    · simp [hb] at h
    · simp [hb]

/-- A structurally valid transaction has positive amount and non-negative
fee. -/
theorem is_valid_facts (tx : Transaction) (h : tx.is_valid = true) :
    0 < tx.amount ∧ 0 ≤ tx.fee := by
  unfold Transaction.is_valid at h
  simp only [Bool.and_eq_true, decide_eq_true_eq] at h
  exact ⟨h.1.1.1.2, h.1.1.2⟩

/-- Claim C7 (amended): after a successful submission followed by a
successful mine, the mempool is empty and the chain grew by exactly one
block, for every miner address; the miner's balance grows by at least the
mining reward provided the miner address is not the synthetic "coinbase"
address and is not the sender of the submitted transaction nor of any
previously pooled transaction, all of which are valid (as every transaction
admitted through submission is).  No exclusion of the "fees" address is
needed: the fee payout is a fee-free self-transfer there and never lowers
the miner's balance. -/
theorem claim7_submit_mine (H : String → String) (c : Chain) (tx : Transaction)
    (miner : String) (tc tf tb : ℚ) (blk : Block)
    (hsub : (c.add_transaction tx).1 = true)
    (hsome : (Chain.mine_block H (c.add_transaction tx).2 miner tc tf tb).1 = some blk) :
    ((Chain.mine_block H (c.add_transaction tx).2 miner tc tf tb).2).transaction_pool = []
    ∧ ((Chain.mine_block H (c.add_transaction tx).2 miner tc tf tb).2).chain.length =
        c.chain.length + 1
    ∧ ((∀ t ∈ c.transaction_pool, t.is_valid = true) →
       (∀ t ∈ c.transaction_pool, t.sender ≠ miner) →
       tx.sender ≠ miner →
       miner ≠ "coinbase" →
       getBal ((Chain.mine_block H (c.add_transaction tx).2 miner tc tf tb).2).balances miner ≥
         getBal c.balances miner + c.mining_reward) := by
  obtain ⟨hc1, hvtx⟩ := add_transaction_success c tx hsub
  obtain ⟨hamt, hfee0⟩ := is_valid_facts tx hvtx
  set c1 := (c.add_transaction tx).2 with hc1def
  by_cases hp : c1.transaction_pool.isEmpty
  · rw [hc1] at hp
    simp at hp
  · have hpf := Bool.eq_false_iff.mpr hp
    cases hms : mineSearch H (c1.candidate H miner tc tf tb) with
    | none =>
      unfold Chain.mine_block at hsome
      rw [hpf] at hsome
      simp [hms] at hsome
    | some v =>
      obtain ⟨n, att⟩ := v
      rw [mine_block_some H c1 miner tc tf tb n att hpf hms]
      have hpool1 : c1.transaction_pool = c.transaction_pool ++ [tx] := by
        rw [hc1]
      have hbal1 : c1.balances = c.balances := by rw [hc1]
      have hrew1 : c1.mining_reward = c.mining_reward := by rw [hc1]
      have hch1 : c1.chain = c.chain := by rw [hc1]
      refine ⟨rfl, by simp [hch1], ?_⟩
      intro hvalid hsender htxm hcb
      show getBal (update_balances c1.balances (c1.blockTxs miner tc tf)) miner ≥ _
      have hfeesum : (0:ℚ) ≤ c1.totalFees := by
        unfold Chain.totalFees
        apply List.sum_nonneg
        intro x hx
        obtain ⟨t, ht, rfl⟩ := List.mem_map.mp hx
        rw [hpool1] at ht
        rcases List.mem_append.mp ht with ht' | ht'
        · exact (is_valid_facts t (hvalid t ht')).2
        · rw [List.mem_singleton.mp ht']
          exact hfee0
      have hamtnn : ∀ t ∈ c1.transaction_pool, (0:ℚ) ≤ t.amount := by
        intro t ht
        rw [hpool1] at ht
        rcases List.mem_append.mp ht with ht' | ht'
        · exact le_of_lt (is_valid_facts t (hvalid t ht')).1
        · rw [List.mem_singleton.mp ht']
          exact le_of_lt hamt
      have hsendpool : ∀ t ∈ c1.transaction_pool, t.sender ≠ miner := by
        intro t ht
        rw [hpool1] at ht
        rcases List.mem_append.mp ht with h' | h'
        · exact hsender t h'
        · rw [List.mem_singleton.mp h']
          exact htxm
      have hcredit_nonneg : (0:ℚ) ≤ (c1.transaction_pool.map
          (fun t => if t.receiver = miner then t.amount else 0)).sum := by
        apply List.sum_nonneg
        intro x hx
        obtain ⟨t, ht, rfl⟩ := List.mem_map.mp hx
        split_ifs
        · exact hamtnn t ht
        · exact le_refl 0
      have h1 : getBal (applyTx c1.balances (c1.rewardTx miner tc)) miner =
          getBal c.balances miner + c.mining_reward := by
        rw [getBal_applyTx_nonsender c1.balances _ miner
              (show (c1.rewardTx miner tc).sender ≠ miner from fun he => hcb he.symm),
            if_pos (show (c1.rewardTx miner tc).receiver = miner from rfl),
            hbal1,
            show (c1.rewardTx miner tc).amount = c.mining_reward from hrew1]
      have hfee_step : ∀ bs : Balances,
          getBal bs miner ≤ getBal (applyTx bs (c1.feeTx miner tf)) miner := by
        intro bs
        by_cases hmf : miner = "fees"
        · have hsr : (c1.feeTx miner tf).sender = (c1.feeTx miner tf).receiver := by
            show ("fees" : String) = miner
            exact hmf.symm
          exact getBal_applyTx_self_transfer bs (c1.feeTx miner tf) hsr rfl hfeesum
        · rw [getBal_applyTx_nonsender bs _ miner
                (show (c1.feeTx miner tf).sender ≠ miner from fun he => hmf he.symm),
              if_pos (show (c1.feeTx miner tf).receiver = miner from rfl)]
          linarith [show (0:ℚ) ≤ (c1.feeTx miner tf).amount from hfeesum]
      unfold update_balances Chain.blockTxs
      split_ifs with hpos
      · rw [List.foldl_cons, List.foldl_cons,
            getBal_fold_nonsender c1.transaction_pool _ miner hsendpool]
        have h2 := hfee_step (applyTx c1.balances (c1.rewardTx miner tc))
        linarith
      · rw [List.foldl_cons,
            getBal_fold_nonsender c1.transaction_pool _ miner hsendpool]
        linarith

/-- Claim C7 counterexample: in the spec's own scenario (genesis chain,
miner1 submits 25 with fee 0.001 and then mines), the submission and the
mine both succeed, yet the miner's balance increases by 25, less than the
fixed mining reward 50 — because the miner was also the sender of the
pooled transaction. -/
theorem claim7_counterexample :
    (cG.add_transaction txS).1 = true
    ∧ (Chain.mine_block H1 (cG.add_transaction txS).2 "miner1" 0 0 0).1.isSome = true
    ∧ (Chain.mine_block H1 (cG.add_transaction txS).2 "miner1" 0 0 0).2.transaction_pool = []
    ∧ (Chain.mine_block H1 (cG.add_transaction txS).2 "miner1" 0 0 0).2.chain.length =
        cG.chain.length + 1
    ∧ getBal (Chain.mine_block H1 (cG.add_transaction txS).2 "miner1" 0 0 0).2.balances "miner1" <
        getBal cG.balances "miner1" + cG.mining_reward := by decide

/-- Claim C7 witness: submitting to the concrete empty-pool chain and mining
as a third party grows the chain by one block, empties the mempool and pays
the miner at least the reward. -/
theorem claim7_witness :
    (cEx.add_transaction txA).1 = true
    ∧ (Chain.mine_block H1 (cEx.add_transaction txA).2 "m" 0 0 0).1 = some wBlk7
    ∧ (Chain.mine_block H1 (cEx.add_transaction txA).2 "m" 0 0 0).2.transaction_pool = []
    ∧ (Chain.mine_block H1 (cEx.add_transaction txA).2 "m" 0 0 0).2.chain.length =
        cEx.chain.length + 1
    ∧ getBal (Chain.mine_block H1 (cEx.add_transaction txA).2 "m" 0 0 0).2.balances "m" ≥
        getBal cEx.balances "m" + cEx.mining_reward := by
  have h := claim7_submit_mine H1 cEx txA "m" 0 0 0 wBlk7 (by decide) (by decide)
  exact ⟨by decide, by decide, h.1, h.2.1,
    h.2.2 (by decide) (by decide) (by decide) (by decide)⟩

/-- Claim C10 (amended): when "coinbase" and "fees" are not keys of the
balances dict, every pooled sender is a key, every pooled fee is
non-negative (as admission guarantees), the key list is duplicate-free (as
a Python dict's always is) and the miner address is not the synthetic
"fees" address, a successful mine increases the total of all recorded
balances by exactly the mining reward: the reward and fee payouts are
minted without debiting their synthetic senders, and the debited fees
cancel the fee payout. -/
theorem claim10_supply_increase (H : String → String) (c : Chain) (miner : String)
    (tc tf tb : ℚ) (blk : Block)
    (hnd : (keysOf c.balances).Nodup)
    (hcb : hasKey c.balances "coinbase" = false)
    (hfs : hasKey c.balances "fees" = false)
    (hsend : ∀ t ∈ c.transaction_pool, hasKey c.balances t.sender = true)
    (hfee : ∀ t ∈ c.transaction_pool, (0:ℚ) ≤ t.fee)
    (hminer : miner ≠ "fees")
    (hsome : (Chain.mine_block H c miner tc tf tb).1 = some blk) :
    sumBal ((Chain.mine_block H c miner tc tf tb).2).balances =
      sumBal c.balances + c.mining_reward := by
  by_cases hp : c.transaction_pool.isEmpty
  · unfold Chain.mine_block at hsome
    rw [hp] at hsome
    simp at hsome
  · have hpf := Bool.eq_false_iff.mpr hp
    cases hms : mineSearch H (c.candidate H miner tc tf tb) with
    | none =>
      unfold Chain.mine_block at hsome
      rw [hpf] at hsome
      simp [hms] at hsome
    | some v =>
      obtain ⟨n, att⟩ := v
      rw [mine_block_some H c miner tc tf tb n att hpf hms]
      show sumBal (update_balances c.balances (c.blockTxs miner tc tf)) = _
      have hfeesum : (0:ℚ) ≤ c.totalFees := by
        unfold Chain.totalFees
        apply List.sum_nonneg
        intro x hx
        obtain ⟨t, ht, rfl⟩ := List.mem_map.mp hx
        exact hfee t ht
      have hcond0 : hasKey c.balances (c.rewardTx miner tc).sender = false := hcb
      have hsum1 : sumBal (applyTx c.balances (c.rewardTx miner tc)) =
          sumBal c.balances + c.mining_reward := by
        rw [sumBal_applyTx c.balances _ hnd, hcond0]
        simp only [Bool.false_eq_true, if_false]
        rw [show (c.rewardTx miner tc).amount = c.mining_reward from rfl]
        ring
      have hnd1 : (keysOf (applyTx c.balances (c.rewardTx miner tc))).Nodup :=
        nodup_applyTx _ _ hnd
      have hsend1 : ∀ t ∈ c.transaction_pool,
          hasKey (applyTx c.balances (c.rewardTx miner tc)) t.sender = true :=
        fun t ht => hasKey_mono_applyTx _ _ _ (hsend t ht)
      have hfees1 : hasKey (applyTx c.balances (c.rewardTx miner tc)) "fees" = false := by
        cases hx : hasKey (applyTx c.balances (c.rewardTx miner tc)) "fees"
        · rfl
        · exfalso
          have hmem := (hasKey_iff _ _).mp hx
          rw [keysOf_applyTx] at hmem
          have hnotk : ("fees" : String) ∉ keysOf c.balances := fun hmem' => by
            rw [(hasKey_iff _ _).mpr hmem'] at hfs
            exact absurd hfs (by simp)
          split_ifs at hmem
          · exact hnotk hmem
          · rcases List.mem_append.mp hmem with hmem' | hmem'
            · exact hnotk hmem'
            · have : ("fees" : String) = miner := by simpa using hmem'
              exact hminer this.symm
      unfold update_balances Chain.blockTxs
      split_ifs with hpos
      · rw [List.foldl_cons, List.foldl_cons]
        have hcondf : hasKey (applyTx c.balances (c.rewardTx miner tc))
            (c.feeTx miner tf).sender = false := hfees1
        have hsum2 : sumBal (applyTx (applyTx c.balances (c.rewardTx miner tc))
            (c.feeTx miner tf)) =
            sumBal c.balances + c.mining_reward + c.totalFees := by
          rw [sumBal_applyTx _ _ hnd1, hcondf]
          simp only [Bool.false_eq_true, if_false]
          rw [show (c.feeTx miner tf).amount = c.totalFees from rfl, hsum1]
          ring
        have hnd2 : (keysOf (applyTx (applyTx c.balances (c.rewardTx miner tc))
            (c.feeTx miner tf))).Nodup := nodup_applyTx _ _ hnd1
        have hsend2 : ∀ t ∈ c.transaction_pool,
            hasKey (applyTx (applyTx c.balances (c.rewardTx miner tc))
              (c.feeTx miner tf)) t.sender = true :=
          fun t ht => hasKey_mono_applyTx _ _ _ (hsend1 t ht)
        rw [sumBal_fold c.transaction_pool _ hnd2 hsend2, hsum2]
        show _ = sumBal c.balances + c.mining_reward
        unfold Chain.totalFees
        ring
      · have hzero : c.totalFees = 0 := le_antisymm (not_lt.mp hpos) hfeesum
        rw [List.foldl_cons]
        rw [sumBal_fold c.transaction_pool _ hnd1 hsend1, hsum1]
        have : (c.transaction_pool.map Transaction.fee).sum = c.totalFees := rfl
        rw [this, hzero]
        ring

/-- Claim C10 counterexample: a state satisfying all of the claim's stated
provisos (synthetic addresses unknown, pooled sender known) but mined with
"fees" as the miner address increases the total recorded balance by
49.999, not by the 50.0 reward: the fee payout is debited from the miner's
own freshly credited entry. -/
theorem claim10_counterexample :
    hasKey cM.balances "coinbase" = false
    ∧ hasKey cM.balances "fees" = false
    ∧ cM.transaction_pool.all (fun t => hasKey cM.balances t.sender) = true
    ∧ (Chain.mine_block H1 cM "fees" 0 0 0).1.isSome = true
    ∧ sumBal ((Chain.mine_block H1 cM "fees" 0 0 0).2).balances ≠
        sumBal cM.balances + cM.mining_reward := by decide

/-- Claim C10 witness: mining the concrete one-transaction pool as a third
party grows the total recorded balance by exactly the 50.0 reward. -/
theorem claim10_witness :
    (Chain.mine_block H1 cM "m" 0 0 0).1 = some wBlk
    ∧ sumBal ((Chain.mine_block H1 cM "m" 0 0 0).2).balances =
        sumBal cM.balances + cM.mining_reward := by
  refine ⟨by decide, ?_⟩
  exact claim10_supply_increase H1 cM "m" 0 0 0 wBlk (by decide) (by decide)
    (by decide) (by decide) (by decide) (by decide) (by decide)

end SB
